import Mathlib

/-
  Verification of the stroke post-processing pipeline of the
  handwriting-synthesis repository (src/drawing.py, src/src/demo.py).

  Points carry real-valued x, y and an end-of-stroke flag (stored as a
  real number, as in the source arrays).  Randomness is modelled by an
  explicit stream of draw values: each call to the generator consumes
  the next stream element; a uniform draw over an interval maps a
  stream value r to a + (b - a) * r (so stream values in the unit
  interval correspond to admissible uniform draws), and a normal draw
  maps a stream value r to mu + sigma * r.
-/

open Classical

/-- A point of a stroke sequence: x, y coordinates and end-of-stroke flag. -/
structure Pt where
  x : ℝ
  y : ℝ
  eos : ℝ

/-- Explicit random generator state: a stream of draw values and a cursor. -/
structure Rng where
  stream : ℕ → ℝ
  pos : ℕ

/-- Consume one value from the generator stream. -/
def Rng.next (g : Rng) : ℝ × Rng :=
  (g.stream g.pos, ⟨g.stream, g.pos + 1⟩)

/-- Model of np.random.uniform(a, b): an affine image of the next stream value. -/
def uniformD (a b : ℝ) (g : Rng) : ℝ × Rng :=
  let (r, g') := g.next
  (a + (b - a) * r, g')

/-- Model of np.random.normal(mu, sigma): an affine image of the next stream value. -/
def normalD (mu sigma : ℝ) (g : Rng) : ℝ × Rng :=
  let (r, g') := g.next
  (mu + sigma * r, g')

/-- Mean of a list of reals (np.mean); 0 on the empty list. -/
noncomputable def mean (l : List ℝ) : ℝ := l.sum / l.length

/-- The x coordinate of the first point (coords[0, 0]); 0 on the empty list. -/
def headX : List Pt → ℝ
  | [] => 0
  | p :: _ => p.x

/-- The y coordinate of the first point; 0 on the empty list. -/
def headY : List Pt → ℝ
  | [] => 0
  | p :: _ => p.y

/-- The x coordinate of the last point (coords[-1, 0]); 0 on the empty list. -/
def lastX (c : List Pt) : ℝ :=
  match c.getLast? with
  | some p => p.x
  | none => 0

/-- The end-of-stroke column of a sequence. -/
def eosCol (l : List Pt) : List ℝ := l.map Pt.eos

/-- Stroke segmentation used throughout drawing.py: accumulate points until a
row with eos = 1 closes a segment; `cur` holds the pending (reversed) prefix.
Returns the closed segments and the trailing points after the last eos row. -/
noncomputable def splitAux (cur : List Pt) : List Pt → List (List Pt) × List Pt
  | [] => ([], cur.reverse)
  | p :: rest =>
    if p.eos = 1 then
      let (segs, tail) := splitAux [] rest
      ((cur.reverse ++ [p]) :: segs, tail)
    else
      splitAux (p :: cur) rest

/-- Split a sequence into eos-terminated strokes plus the trailing remainder. -/
noncomputable def splitStrokes (c : List Pt) : List (List Pt) × List Pt :=
  splitAux [] c

/-- Reassembling the segments and the tail restores the input sequence. -/
theorem splitAux_join (l : List Pt) :
    ∀ cur, ((splitAux cur l).1.flatten ++ (splitAux cur l).2) = cur.reverse ++ l := by
  induction l with
  | nil => intro cur; simp [splitAux]
  | cons p rest ih =>
    intro cur
    by_cases h : p.eos = 1
    · simp only [splitAux, if_pos h]
      have := ih []
      simp only [List.flatten_cons, List.append_assoc]
      simp at this
      simp [this]
    · simp only [splitAux, if_neg h]
      have := ih (p :: cur)
      simpa using this

theorem splitStrokes_join (c : List Pt) :
    (splitStrokes c).1.flatten ++ (splitStrokes c).2 = c := by
  simpa using splitAux_join c []

/- ==================== drawing.coords_to_offsets / offsets_to_coords ==================== -/

/-- Consecutive differences of (x, y), keeping the later point's eos
(coords[1:, :2] - coords[:-1, :2] joined with coords[1:, 2:3]). -/
def diffs : List Pt → List Pt
  | p :: q :: rest => ⟨q.x - p.x, q.y - p.y, q.eos⟩ :: diffs (q :: rest)
  | _ => []

/-- drawing.coords_to_offsets: consecutive differences with the sentinel row
(0, 0, 1) prepended. -/
def coordsToOffsets (c : List Pt) : List Pt := ⟨0, 0, 1⟩ :: diffs c

/-- Running cumulative sum of the (dx, dy) columns with accumulator (ax, ay). -/
def o2cAux (ax ay : ℝ) : List Pt → List Pt
  | [] => []
  | p :: rest => ⟨ax + p.x, ay + p.y, p.eos⟩ :: o2cAux (ax + p.x) (ay + p.y) rest

/-- drawing.offsets_to_coords: cumulative sum of the offset columns, eos kept. -/
def offsetsToCoords (o : List Pt) : List Pt := o2cAux 0 0 o

theorem o2cAux_diffs (rest : List Pt) :
    ∀ (p0 : Pt) (ax ay : ℝ),
      o2cAux ax ay (diffs (p0 :: rest)) =
        rest.map (fun q => ⟨q.x - p0.x + ax, q.y - p0.y + ay, q.eos⟩) := by
  induction rest with
  | nil => intro p0 ax ay; simp [diffs, o2cAux]
  | cons q rest' ih =>
    intro p0 ax ay
    simp only [diffs, o2cAux, List.map_cons, List.cons.injEq, Pt.mk.injEq]
    refine ⟨⟨by ring, by ring, trivial⟩, ?_⟩
    rw [ih q]
    apply List.map_congr_left
    intro r _
    simp only [Pt.mk.injEq]
    exact ⟨by ring, by ring, trivial⟩

/-- C3: the round trip offsets_to_coords (coords_to_offsets c) reproduces c
translated so that its first point is the origin: at every index i the (x, y)
of the result equals the (x, y) of c at i minus the (x, y) of c at 0. -/
theorem roundtrip_translates_to_origin (c : List Pt) (i : ℕ) (hi : i < c.length) :
    ((offsetsToCoords (coordsToOffsets c)).map (fun p => (p.x, p.y)))[i]? =
      some ((c.get ⟨i, hi⟩).x - headX c, (c.get ⟨i, hi⟩).y - headY c) := by
  match c with
  | [] => exact absurd hi (by simp)
  | p0 :: rest =>
    have key : offsetsToCoords (coordsToOffsets (p0 :: rest)) =
        ⟨0, 0, 1⟩ :: rest.map (fun q => ⟨q.x - p0.x, q.y - p0.y, q.eos⟩) := by
      simp only [offsetsToCoords, coordsToOffsets, o2cAux]
      rw [o2cAux_diffs rest p0]
      simp only [List.cons.injEq, Pt.mk.injEq]
      refine ⟨⟨by norm_num, by norm_num, trivial⟩, ?_⟩
      apply List.map_congr_left
      intro r _
      simp only [Pt.mk.injEq]
      exact ⟨by ring, by ring, trivial⟩
    rw [key]
    match i with
    | 0 => simp [headX, headY]
    | Nat.succ j =>
      have hj : j < rest.length := by simpa using hi
      simp only [List.map_cons, List.getElem?_cons_succ, List.get_eq_getElem,
        List.getElem_cons_succ, List.getElem?_map]
      rw [List.getElem?_eq_getElem hj]
      simp [headX, headY]

/-- C3 witness: concrete two-point sequence, index 1. -/
theorem roundtrip_translates_to_origin_witness :
    ((offsetsToCoords (coordsToOffsets [⟨1, 2, 0⟩, ⟨3, 5, 1⟩])).map
        (fun p => (p.x, p.y)))[1]? = some ((2 : ℝ), (3 : ℝ)) := by
  have h := roundtrip_translates_to_origin [⟨1, 2, 0⟩, ⟨3, 5, 1⟩] 1 (by simp)
  simp only [List.get_eq_getElem] at h
  norm_num [headX, headY] at h
  convert h using 3
  norm_num

/- ==================== drawing.alphabet / encode_ascii ==================== -/

/-- The fixed symbol table of drawing.py. -/
def alphabet : List Char :=
  ['\x00', ' ', '!', '"', '#', '\'', '(', ')', ',', '-', '.',
   '0', '1', '2', '3', '4', '5', '6', '7', '8', '9', ':', ';',
   '?', 'A', 'B', 'C', 'D', 'E', 'F', 'G', 'H', 'I', 'J', 'K',
   'L', 'M', 'N', 'O', 'P', 'R', 'S', 'T', 'U', 'V', 'W', 'Y',
   'a', 'b', 'c', 'd', 'e', 'f', 'g', 'h', 'i', 'j', 'k', 'l',
   'm', 'n', 'o', 'p', 'q', 'r', 's', 't', 'u', 'v', 'w', 'x',
   'y', 'z']

/-- drawing.alpha_to_num: a dictionary from character to table index whose
missing entries default to 0. -/
def alphaToNum (c : Char) : ℕ := (alphabet.indexOf? c).getD 0

/-- drawing.encode_ascii: encode each character and append the terminator 0. -/
def encodeAscii (s : List Char) : List ℕ := s.map alphaToNum ++ [0]

theorem alphaToNum_not_mem {c : Char} (h : c ∉ alphabet) : alphaToNum c = 0 := by
  unfold alphaToNum
  rw [List.indexOf?_eq_none_iff.mpr ?_]
  · rfl
  · intro x hx
    simp only [beq_iff_eq]
    exact fun hxc => h (hxc ▸ hx)

/-- C10: encode_ascii returns a sequence of length one more than its input
whose last element is the terminator 0, and characters outside the alphabet
are encoded as 0 rather than rejected. -/
theorem encodeAscii_spec (s : List Char) :
    (encodeAscii s).length = s.length + 1 ∧
    (encodeAscii s).getLast? = some 0 ∧
    ∀ (i : ℕ) (c : Char), s[i]? = some c → c ∉ alphabet → (encodeAscii s)[i]? = some 0 := by
  refine ⟨by simp [encodeAscii], ?_, ?_⟩
  · unfold encodeAscii
    rw [List.getLast?_concat]
  · intro i c hi hc
    have hlen : i < s.length := by
      by_contra hlt
      rw [List.getElem?_eq_none (by omega)] at hi
      exact Option.noConfusion hi
    unfold encodeAscii
    rw [List.getElem?_append_left (by simpa using hlen), List.getElem?_map, hi]
    simp [alphaToNum_not_mem hc]

/-- C10 witness: the out-of-alphabet character Z encodes to 0 and the
terminator is appended. -/
theorem encodeAscii_spec_witness :
    (encodeAscii ['Z', 'a']).length = 3 ∧ (encodeAscii ['Z', 'a'])[0]? = some 0 := by
  exact ⟨by simpa using (encodeAscii_spec ['Z', 'a']).1,
    (encodeAscii_spec ['Z', 'a']).2.2 0 'Z' (by decide) (by decide)⟩

/- ==================== demo.Hand.write validation ==================== -/

/-- Validation failures raised by Hand.write. -/
inductive WErr where
  | tooLong (lineNum : ℕ) (len : ℕ)
  | invalidChar (lineNum : ℕ) (c : Char)
deriving DecidableEq

/-- Per-line check of Hand.write: the length bound first, then the first
character outside the alphabet, each reported with the line index. -/
def checkLine (i : ℕ) (l : List Char) : Except WErr Unit :=
  if 75 < l.length then .error (.tooLong i l.length)
  else
    match l.find? (fun c => !alphabet.contains c) with
    | some c => .error (.invalidChar i c)
    | none => .ok ()

/-- The validation loop of Hand.write over all lines, indexed from i. -/
def validateAux (i : ℕ) : List (List Char) → Except WErr Unit
  | [] => .ok ()
  | l :: rest =>
    match checkLine i l with
    | .error e => .error e
    | .ok _ => validateAux (i + 1) rest

def validateLines (lines : List (List Char)) : Except WErr Unit := validateAux 0 lines

/-- Hand.write: validate every line, then (and only then) run generation and
rendering, modelled as an opaque function of the validated lines. -/
def handWrite {α : Type} (gen : List (List Char) → α) (lines : List (List Char)) :
    Except WErr α :=
  match validateLines lines with
  | .error e => .error e
  | .ok _ => .ok (gen lines)

/-- A line acceptable to the validator. -/
def goodLine (l : List Char) : Prop := l.length ≤ 75 ∧ ∀ c ∈ l, c ∈ alphabet

instance : DecidablePred goodLine := fun l => by
  unfold goodLine
  infer_instance

theorem checkLine_ok_iff (i : ℕ) (l : List Char) :
    checkLine i l = .ok () ↔ goodLine l := by
  unfold checkLine goodLine
  by_cases h : 75 < l.length
  · simp only [if_pos h]
    constructor
    · intro hcontra; exact absurd hcontra (by simp)
    · intro hg; omega
  · simp only [if_neg h]
    rcases hf : l.find? (fun c => !alphabet.contains c) with _ | c
    · simp only [List.find?_eq_none] at hf
      constructor
      · intro _
        refine ⟨by omega, fun c hc => ?_⟩
        simpa using hf c hc
      · intro _; rfl
    · constructor
      · intro hcontra; exact absurd hcontra (by simp)
      · rintro ⟨_, hall⟩
        have hmem := List.find?_some hf
        have hcm := List.mem_of_find?_eq_some hf
        simp at hmem
        exact absurd (hall c hcm) hmem

theorem validateAux_ok_iff (lines : List (List Char)) :
    ∀ n, validateAux n lines = .ok () ↔ ∀ l ∈ lines, goodLine l := by
  induction lines with
  | nil => intro n; simp [validateAux]
  | cons l rest ih =>
    intro n
    unfold validateAux
    rcases hc : checkLine n l with e | u
    · simp only [List.mem_cons]
      constructor
      · intro hcontra; exact absurd hcontra (by simp)
      · intro hall
        have : goodLine l := hall l (Or.inl rfl)
        rw [← checkLine_ok_iff n l] at this
        rw [hc] at this
        exact absurd this (by simp)
    · obtain ⟨⟩ := u
      rw [checkLine_ok_iff] at hc
      simp [ih (n + 1), hc]

theorem validateAux_err_spec (lines : List (List Char)) :
    ∀ n i l, lines[i]? = some l →
      (∀ j l', j < i → lines[j]? = some l' → goodLine l') →
      (75 < l.length → validateAux n lines = .error (.tooLong (n + i) l.length)) ∧
      (∀ c, l.length ≤ 75 → l.find? (fun c' => !alphabet.contains c') = some c →
        validateAux n lines = .error (.invalidChar (n + i) c)) := by
  induction lines with
  | nil => intro n i l hi; simp at hi
  | cons l0 rest ih =>
    intro n i l hi hprev
    match i with
    | 0 =>
      simp only [List.getElem?_cons_zero, Option.some.injEq] at hi
      subst hi
      constructor
      · intro hlong
        unfold validateAux checkLine
        rw [if_pos hlong]
        simp
      · intro c hshort hfind
        unfold validateAux checkLine
        rw [if_neg (by omega), hfind]
        simp
    | Nat.succ j =>
      have h0 : goodLine l0 := hprev 0 l0 (by omega) (by simp)
      have hok : checkLine n l0 = .ok () := (checkLine_ok_iff n l0).mpr h0
      have hrest := ih (n + 1) j l (by simpa using hi)
        (fun j' l' hj' hj'mem => hprev (j' + 1) l' (by omega) (by simpa using hj'mem))
      constructor
      · intro hlong
        unfold validateAux
        rw [hok]
        have heq : n + Nat.succ j = n + 1 + j := by omega
        rw [heq]
        exact hrest.1 hlong
      · intro c hshort hfind
        unfold validateAux
        rw [hok]
        have heq : n + Nat.succ j = n + 1 + j := by omega
        rw [heq]
        exact hrest.2 c hshort hfind

/-- C4: Hand.write accepts exactly the line lists whose every line has at most
75 alphabet characters (so an exactly-75-character valid line passes); an
overlong line is rejected with a length error naming its index, a line with a
character outside the alphabet is rejected with a character error naming its
index, and whenever any line fails the result does not depend on the
generation function, i.e. no generation or rendering is performed. -/
theorem handWrite_validation {α : Type} (lines : List (List Char))
    (gen gen' : List (List Char) → α) :
    (handWrite gen lines = .ok (gen lines) ↔ ∀ l ∈ lines, goodLine l) ∧
    (∀ i l, lines[i]? = some l →
      (∀ j l', j < i → lines[j]? = some l' → goodLine l') →
      75 < l.length → handWrite gen lines = .error (.tooLong i l.length)) ∧
    (∀ i l c, lines[i]? = some l →
      (∀ j l', j < i → lines[j]? = some l' → goodLine l') →
      l.length ≤ 75 → l.find? (fun c' => !alphabet.contains c') = some c →
      handWrite gen lines = .error (.invalidChar i c)) ∧
    ((¬ ∀ l ∈ lines, goodLine l) → handWrite gen lines = handWrite gen' lines) := by
  have hok := validateAux_ok_iff lines 0
  refine ⟨?_, ?_, ?_, ?_⟩
  · unfold handWrite validateLines
    constructor
    · intro h
      rcases hv : validateAux 0 lines with e | u
      · rw [hv] at h; exact absurd h (by simp)
      · obtain ⟨⟩ := u; exact hok.mp hv
    · intro h
      rw [hok.mpr h]
  · intro i l hi hprev hlong
    have h := (validateAux_err_spec lines 0 i l hi hprev).1 hlong
    rw [Nat.zero_add] at h
    unfold handWrite validateLines
    rw [h]
  · intro i l c hi hprev hshort hfind
    have h := (validateAux_err_spec lines 0 i l hi hprev).2 c hshort hfind
    rw [Nat.zero_add] at h
    unfold handWrite validateLines
    rw [h]
  · intro hbad
    rcases hv : validateAux 0 lines with e | u
    · unfold handWrite validateLines
      rw [hv]
    · obtain ⟨⟩ := u; exact absurd (hok.mp hv) hbad

/-- C4 witness: a 75-character line is accepted, a 76-character line is
rejected with a length error at index 0, and a tilde in the second line is
rejected with a character error at index 1. -/
theorem handWrite_validation_witness :
    handWrite (fun _ => (0 : ℕ)) [List.replicate 75 'a'] = .ok 0 ∧
    handWrite (fun _ => (0 : ℕ)) [List.replicate 76 'a'] = .error (.tooLong 0 76) ∧
    handWrite (fun _ => (0 : ℕ)) [['a'], ['a', '~']] = .error (.invalidChar 1 '~') := by
  refine ⟨?_, ?_, ?_⟩
  · exact (handWrite_validation [List.replicate 75 'a'] (fun _ => 0) (fun _ => 0)).1.mpr
      (by decide)
  · have h := (handWrite_validation [List.replicate 76 'a'] (fun _ => (0 : ℕ))
      (fun _ => 0)).2.1 0 (List.replicate 76 'a') (by simp)
      (fun j l' hj _ => absurd hj (by omega)) (by simp)
    simpa using h
  · exact (handWrite_validation [['a'], ['a', '~']] (fun _ => (0 : ℕ))
      (fun _ => 0)).2.2.1 1 ['a', '~'] '~' (by decide)
      (fun j l' hj hmem => by
        match j, hj with
        | 0, _ => simp at hmem; subst hmem; decide)
      (by decide) (by decide)

/- ==================== demo.Hand._sample zero-row handling ==================== -/

/-- A row of a sampled offset array that is zero in all three fields. -/
def allZeroRow (p : Pt) : Prop := p.x = 0 ∧ p.y = 0 ∧ p.eos = 0

/-- demo.Hand._sample: the boolean mask sample[~np.all(sample == 0.0, axis=1)]
removes every row that is zero in all three fields, wherever it occurs. -/
noncomputable def stripZeroRows : List Pt → List Pt
  | [] => []
  | p :: rest => if allZeroRow p then stripZeroRows rest else p :: stripZeroRows rest

/-- Modelled from the spec's description of the step: truncate at the first
fully-zero row, keeping exactly the rows before it. -/
noncomputable def truncAtFirstZeroRow : List Pt → List Pt
  | [] => []
  | p :: rest => if allZeroRow p then [] else p :: truncAtFirstZeroRow rest

/-- C6 counterexample: on a sample with an interior fully-zero row followed by
a nonzero row, the code's mask filtering differs from truncation at the first
fully-zero row: the mask drops the interior zero row and keeps the later row. -/
theorem stripZeroRows_ne_truncate :
    stripZeroRows [⟨1, 1, 1⟩, ⟨0, 0, 0⟩, ⟨2, 2, 2⟩] ≠
      truncAtFirstZeroRow [⟨1, 1, 1⟩, ⟨0, 0, 0⟩, ⟨2, 2, 2⟩] := by
  have h1 : ¬ allZeroRow ⟨1, 1, 1⟩ := by
    rintro ⟨h, -, -⟩; norm_num at h
  have h2 : allZeroRow ⟨0, 0, 0⟩ := ⟨rfl, rfl, rfl⟩
  have h3 : ¬ allZeroRow ⟨2, 2, 2⟩ := by
    rintro ⟨h, -, -⟩; norm_num at h
  simp only [stripZeroRows, truncAtFirstZeroRow, if_pos h2, if_neg h1, if_neg h3]
  intro hcontra
  have := congrArg List.length hcontra
  simp at this

/-- Rows that are entirely zero strip to the empty list. -/
theorem stripZeroRows_all_zero {l : List Pt} (h : ∀ p ∈ l, allZeroRow p) :
    stripZeroRows l = [] := by
  induction l with
  | nil => rfl
  | cons p rest ih =>
    rw [stripZeroRows, if_pos (h p (List.mem_cons_self p rest))]
    exact ih (fun q hq => h q (List.mem_cons_of_mem p hq))

/-- Fully-zero rows occur only after every nonzero row (trailing padding). -/
def zerosTrailing (rows : List Pt) : Prop :=
  ∀ (i j : ℕ) (p q : Pt), i ≤ j → rows[i]? = some p → rows[j]? = some q →
    allZeroRow p → allZeroRow q

theorem zerosTrailing_tail {p : Pt} {rest : List Pt} (h : zerosTrailing (p :: rest)) :
    zerosTrailing rest := by
  intro i j a b hij ha hb hza
  exact h (i + 1) (j + 1) a b (by omega) (by simpa using ha) (by simpa using hb) hza

/-- C6 amended: the mask removes every fully-zero row wherever it occurs; in
particular it keeps exactly the non-zero rows in order, and when fully-zero
rows occur only as trailing padding the result coincides with truncation at
the first fully-zero row. -/
theorem stripZeroRows_amended (rows : List Pt) (h : zerosTrailing rows) :
    (∀ p ∈ stripZeroRows rows, ¬ allZeroRow p) ∧
    stripZeroRows rows = truncAtFirstZeroRow rows := by
  induction rows with
  | nil => exact ⟨by simp [stripZeroRows], rfl⟩
  | cons p rest ih =>
    obtain ⟨ihmem, iheq⟩ := ih (zerosTrailing_tail h)
    by_cases hz : allZeroRow p
    · have hall : ∀ q ∈ rest, allZeroRow q := by
        intro q hq
        obtain ⟨j, hj, hjq⟩ := List.getElem_of_mem hq
        exact h 0 (j + 1) p q (by omega) (by simp)
          (by rw [List.getElem?_cons_succ]; exact (List.getElem?_eq_getElem hj).trans (by rw [hjq])) hz
      rw [stripZeroRows, truncAtFirstZeroRow, if_pos hz, if_pos hz]
      refine ⟨?_, stripZeroRows_all_zero hall⟩
      intro q hq
      rw [stripZeroRows_all_zero hall] at hq
      simp at hq
    · rw [stripZeroRows, truncAtFirstZeroRow, if_neg hz, if_neg hz]
      refine ⟨?_, by rw [iheq]⟩
      intro q hq
      rcases List.mem_cons.mp hq with rfl | hq'
      · exact hz
      · exact ihmem q hq'

/-- C6 amended witness: a sample with no fully-zero row is trivially
trailing-padded, and the mask coincides with truncation on it. -/
theorem stripZeroRows_amended_witness :
    (∀ p ∈ stripZeroRows [⟨1, 2, 3⟩], ¬ allZeroRow p) ∧
    stripZeroRows [⟨1, 2, 3⟩] = truncAtFirstZeroRow [⟨1, 2, 3⟩] := by
  apply stripZeroRows_amended
  intro i j p q hij hp hq hzp
  have hpm : p ∈ [(⟨1, 2, 3⟩ : Pt)] := List.getElem?_mem hp
  rw [List.mem_singleton] at hpm
  subst hpm
  exact absurd hzp.1 (by norm_num)

/- ==================== drawing.align ==================== -/

/-- Numeric failure raised by np.linalg.inv on a singular normal matrix. -/
inductive NumErr where
  | singular
deriving DecidableEq

/-- drawing.align: closed-form ordinary least squares on the homogeneous
design matrix, then rotation by minus the fitted slope angle and subtraction
of the fitted offset from both coordinates.  Inverting the normal matrix
fails (np.linalg.LinAlgError) exactly when its determinant vanishes. -/
noncomputable def align (coords : List Pt) : Except NumErr (List Pt) :=
  let xs := coords.map Pt.x
  let ys := coords.map Pt.y
  let n : ℝ := coords.length
  let sx := xs.sum
  let sy := ys.sum
  let sxx := (xs.map (fun v => v * v)).sum
  let sxy := ((xs.zip ys).map (fun vw => vw.1 * vw.2)).sum
  let det := n * sxx - sx * sx
  if det = 0 then .error .singular
  else
    let slope := (n * sxy - sx * sy) / det
    let offset := (sxx * sy - sx * sxy) / det
    let theta := Real.arctan slope
    .ok (coords.map (fun p =>
      ⟨p.x * Real.cos theta + p.y * Real.sin theta - offset,
       -(p.x * Real.sin theta) + p.y * Real.cos theta - offset, p.eos⟩))

/-- C9: on a degenerate point set whose least-squares normal system is
singular, in particular whenever every point shares one x value, align
reports the numeric error instead of returning coordinates. -/
theorem align_singular_error (coords : List Pt) (c : ℝ)
    (h : ∀ p ∈ coords, p.x = c) : align coords = .error .singular := by
  unfold align
  rw [if_pos ?_]
  have hx : ∀ v ∈ coords.map Pt.x, v = c := by
    intro v hv
    obtain ⟨p, hp, rfl⟩ := List.mem_map.mp hv
    exact h p hp
  have hsx : (coords.map Pt.x).sum = (coords.map Pt.x).length • c :=
    List.sum_eq_card_nsmul _ c hx
  have hxx : ∀ v ∈ (coords.map Pt.x).map (fun v => v * v), v = c * c := by
    intro v hv
    obtain ⟨w, hw, rfl⟩ := List.mem_map.mp hv
    rw [hx w hw]
  have hsxx : ((coords.map Pt.x).map (fun v => v * v)).sum =
      ((coords.map Pt.x).map (fun v => v * v)).length • (c * c) :=
    List.sum_eq_card_nsmul _ (c * c) hxx
  rw [hsx, hsxx]
  simp only [List.length_map, nsmul_eq_mul]
  ring

/-- C9 witness: two points sharing x = 2. -/
theorem align_singular_error_witness :
    align [⟨2, 1, 0⟩, ⟨2, 3, 1⟩] = .error .singular := by
  apply align_singular_error _ 2
  intro p hp
  rcases List.mem_cons.mp hp with rfl | hp'
  · rfl
  · rcases List.mem_cons.mp hp' with rfl | hp''
    · rfl
    · exact absurd hp'' (List.not_mem_nil p)

/- ==================== drawing.add_messiness ==================== -/

/-- Effect 1 of add_messiness: rotate a stroke about the fixed center
(cx, cy) by angle a (the source centers, rotates, and un-centers). -/
noncomputable def rotateAbout (cx cy a : ℝ) (s : List Pt) : List Pt :=
  s.map (fun p =>
    ⟨(p.x - cx) * Real.cos a - (p.y - cy) * Real.sin a + cx,
     (p.x - cx) * Real.sin a + (p.y - cy) * Real.cos a + cy, p.eos⟩)

/-- Effect 5 of add_messiness: pressure noise, two normal draws per point in
row-major order, scaled by 0.3. -/
noncomputable def pressurize (v : ℝ) : List Pt → Rng → List Pt × Rng
  | [], g => ([], g)
  | p :: rest, g =>
    let rx := (normalD 0 v g).1
    let g1 := (normalD 0 v g).2
    let ry := (normalD 0 v g1).1
    let g2 := (normalD 0 v g1).2
    let r := pressurize v rest g2
    (⟨p.x + rx * 0.3, p.y + ry * 0.3, p.eos⟩ :: r.1, r.2)

/-- Effects 1-5 of add_messiness on one stroke segment: lean rotation (skipped
for tiny angles), baseline drift, height variation about the vertical
centroid, horizontal compression about the horizontal centroid, and pressure
noise for strokes longer than 3 points.  Segments shorter than 2 points are
skipped before any draw. -/
noncomputable def strokeStep (nf rf : ℝ) (s : List Pt) (g : Rng) : List Pt × Rng :=
  if s.length < 2 then (s, g)
  else
    let u1 := (uniformD (-2) 8 g).1
    let g1 := (uniformD (-2) 8 g).2
    let u2 := (uniformD 3 10 g1).1
    let g2 := (uniformD 3 10 g1).2
    let tilt := nf * u1 * Real.pi / 180 + rf * u2 * Real.pi / 180
    let cx := mean (s.map Pt.x)
    let cy := mean (s.map Pt.y)
    let s1 := if 0.01 < |tilt| then rotateAbout cx cy tilt s else s
    let u3 := (uniformD (-1) 1 g2).1
    let g3 := (uniformD (-1) 1 g2).2
    let u4 := (uniformD (-2) 2 g3).1
    let g4 := (uniformD (-2) 2 g3).2
    let s2 := s1.map (fun p => ⟨p.x, p.y + (nf * u3 + rf * u4), p.eos⟩)
    let u5 := (uniformD (-0.08) 0.08 g4).1
    let g5 := (uniformD (-0.08) 0.08 g4).2
    let u6 := (uniformD (-0.12) 0.12 g5).1
    let g6 := (uniformD (-0.12) 0.12 g5).2
    let sv := 1 + nf * u5 + rf * u6
    let cy2 := mean (s2.map Pt.y)
    let s3 := s2.map (fun p => ⟨p.x, (p.y - cy2) * sv + cy2, p.eos⟩)
    let comp := 1 - (nf * 0.05 + rf * 0.15)
    let cx2 := mean (s3.map Pt.x)
    let s4 := s3.map (fun p => ⟨(p.x - cx2) * comp + cx2, p.y, p.eos⟩)
    if 3 < s.length then pressurize (nf * 0.1 + rf * 0.2) s4 g6 else (s4, g6)

/-- Effects 1-5 over all stroke segments in order, threading the generator. -/
noncomputable def mapStrokes (nf rf : ℝ) : List (List Pt) → Rng → List (List Pt) × Rng
  | [], g => ([], g)
  | s :: rest, g =>
    let a := strokeStep nf rf s g
    let b := mapStrokes nf rf rest a.2
    (a.1 :: b.1, b.2)

/-- Horizontal translation of a segment (the zero added to y and eos). -/
def shiftX (d : ℝ) (s : List Pt) : List Pt :=
  s.map (fun p => ⟨p.x + d, p.y + 0, p.eos + 0⟩)

/-- Effect 6 on the strokes after the first: the source adds a fresh spacing
draw to every point from the current stroke onward, so the i-th later stroke
carries the accumulated sum of the first i draws; the returned real is the
final accumulated shift, which also applies to any points after the last
stroke boundary. -/
noncomputable def spacingAux (nf rf acc : ℝ) : List (List Pt) → Rng → List (List Pt) × ℝ × Rng
  | [], g => ([], acc, g)
  | s :: rest, g =>
    let u1 := (uniformD (-2) 4 g).1
    let g1 := (uniformD (-2) 4 g).2
    let u2 := (uniformD (-4) 8 g1).1
    let g2 := (uniformD (-4) 8 g1).2
    let acc2 := acc + (nf * u1 + rf * u2)
    let r := spacingAux nf rf acc2 rest g2
    (shiftX acc2 s :: r.1, r.2.1, r.2.2)

/-- Effects 1-6 of add_messiness: the per-stroke transforms followed by the
cumulative spacing shifts, returning the transformed sequence and the
generator state left for the global-drift step. -/
noncomputable def messPre (c : List Pt) (mf : ℝ) (g : Rng) : List Pt × Rng :=
  let nf := if mf ≤ 1 then mf else 1
  let rf := if mf ≤ 1 then 0 else mf - 1
  let sp := splitStrokes c
  let ms := mapStrokes nf rf sp.1 g
  match ms.1 with
  | [] => (sp.2, ms.2)
  | s0 :: rest =>
    let r := spacingAux nf rf 0 rest ms.2
    ((s0 :: r.1).flatten ++ shiftX r.2.1 sp.2, r.2.2)

/-- Effect 7 of add_messiness (rush mode only): sinusoidal baseline drift
using the first and last x values; the amplitude is drawn only when the
difference last x minus first x is positive. -/
noncomputable def globalDrift (rf : ℝ) (c : List Pt) (g : Rng) : List Pt :=
  if 0 < rf ∧ 10 < c.length then
    if 0 < lastX c - headX c then
      c.map (fun p =>
        ⟨p.x, p.y + rf * (uniformD (-3) 3 g).1 *
          Real.sin ((p.x - headX c) / (lastX c - headX c) * Real.pi), p.eos⟩)
    else c
  else c

/-- drawing.add_messiness: the two-regime procedural perturbation pipeline.
Levels at most 0 return the input unchanged; levels at most 1 use only the
normal regime; above 1 the normal factor saturates at 1 and the excess
becomes the rush factor. -/
noncomputable def addMessiness (c : List Pt) (mf : ℝ) (g : Rng) : List Pt :=
  if mf ≤ 0 then c
  else
    let rf := if mf ≤ 1 then 0 else mf - 1
    let mp := messPre c mf g
    globalDrift rf mp.1 mp.2

/-- C1: with level at most zero, add_messiness returns its input exactly. -/
theorem addMessiness_level_zero (c : List Pt) (mf : ℝ) (g : Rng) (h : mf ≤ 0) :
    addMessiness c mf g = c := by
  unfold addMessiness
  rw [if_pos h]

/-- C1 witness: level 0 on a concrete sequence. -/
theorem addMessiness_level_zero_witness :
    addMessiness [⟨1, 2, 1⟩] 0 ⟨fun _ => 0, 0⟩ = [⟨1, 2, 1⟩] :=
  addMessiness_level_zero [⟨1, 2, 1⟩] 0 ⟨fun _ => 0, 0⟩ le_rfl

/- eos-column preservation of every messiness stage -/

theorem eosCol_map_keep (f : Pt → Pt) (hf : ∀ p, (f p).eos = p.eos) (s : List Pt) :
    eosCol (s.map f) = eosCol s := by
  unfold eosCol
  rw [List.map_map]
  exact List.map_congr_left (fun p _ => hf p)

theorem eosCol_length (s : List Pt) : (eosCol s).length = s.length := by
  simp [eosCol]

theorem shiftX_eosCol (d : ℝ) (s : List Pt) : eosCol (shiftX d s) = eosCol s :=
  eosCol_map_keep _ (fun p => add_zero p.eos) s

theorem pressurize_eosCol (v : ℝ) (s : List Pt) :
    ∀ g, eosCol (pressurize v s g).1 = eosCol s := by
  induction s with
  | nil => intro g; rfl
  | cons p rest ih =>
    intro g
    simp only [pressurize, eosCol, List.map_cons, List.cons.injEq]
    exact ⟨trivial, ih _⟩

theorem strokeStep_eosCol (nf rf : ℝ) (s : List Pt) (g : Rng) :
    eosCol (strokeStep nf rf s g).1 = eosCol s := by
  unfold strokeStep
  by_cases h2 : s.length < 2
  · rw [if_pos h2]
  · rw [if_neg h2]
    simp only []
    by_cases h3 : 3 < s.length
    · rw [if_pos h3, pressurize_eosCol]
      by_cases ht : (0.01 : ℝ) <
          |nf * (uniformD (-2) 8 g).1 * Real.pi / 180 +
            rf * (uniformD 3 10 (uniformD (-2) 8 g).2).1 * Real.pi / 180|
      · rw [if_pos ht]
        unfold rotateAbout eosCol
        simp only [List.map_map]
        exact List.map_congr_left (fun p _ => rfl)
      · rw [if_neg ht]
        unfold eosCol
        simp only [List.map_map]
        exact List.map_congr_left (fun p _ => rfl)
    · rw [if_neg h3]
      simp only []
      by_cases ht : (0.01 : ℝ) <
          |nf * (uniformD (-2) 8 g).1 * Real.pi / 180 +
            rf * (uniformD 3 10 (uniformD (-2) 8 g).2).1 * Real.pi / 180|
      · rw [if_pos ht]
        unfold rotateAbout eosCol
        simp only [List.map_map]
        exact List.map_congr_left (fun p _ => rfl)
      · rw [if_neg ht]
        unfold eosCol
        simp only [List.map_map]
        exact List.map_congr_left (fun p _ => rfl)

theorem mapStrokes_eosCols (nf rf : ℝ) (L : List (List Pt)) :
    ∀ g, (mapStrokes nf rf L g).1.map eosCol = L.map eosCol := by
  induction L with
  | nil => intro g; rfl
  | cons s rest ih =>
    intro g
    simp only [mapStrokes, List.map_cons, List.cons.injEq]
    exact ⟨strokeStep_eosCol nf rf s g, ih _⟩

theorem spacingAux_eosCols (nf rf : ℝ) (L : List (List Pt)) :
    ∀ acc g, (spacingAux nf rf acc L g).1.map eosCol = L.map eosCol := by
  induction L with
  | nil => intro acc g; rfl
  | cons s rest ih =>
    intro acc g
    simp only [spacingAux, List.map_cons, List.cons.injEq]
    exact ⟨shiftX_eosCol _ s, ih _ _⟩

theorem eosCol_append (a b : List Pt) : eosCol (a ++ b) = eosCol a ++ eosCol b := by
  simp [eosCol]

theorem eosCol_flatten (L : List (List Pt)) :
    eosCol L.flatten = (L.map eosCol).flatten := by
  unfold eosCol
  rw [List.map_flatten]

theorem map_length_eq_of_map_eq {α β : Type} {f : α → β} {l1 l2 : List α}
    (h : l1.map f = l2.map f) : l1.length = l2.length := by
  have := congrArg List.length h
  simpa using this

theorem messPre_eosCol (c : List Pt) (mf : ℝ) (g : Rng) :
    eosCol (messPre c mf g).1 = eosCol c := by
  unfold messPre
  simp only []
  have hjoin := splitStrokes_join c
  rcases hms : (mapStrokes (if mf ≤ 1 then mf else 1) (if mf ≤ 1 then 0 else mf - 1)
      (splitStrokes c).1 g).1 with _ | ⟨s0, rest⟩
  · have hlen : (splitStrokes c).1.length = 0 := by
      have := mapStrokes_eosCols (if mf ≤ 1 then mf else 1) (if mf ≤ 1 then 0 else mf - 1)
        (splitStrokes c).1 g
      rw [hms] at this
      have hh := map_length_eq_of_map_eq this
      simpa using hh.symm
    have hnil : (splitStrokes c).1 = [] := List.length_eq_zero.mp hlen
    rw [hnil] at hjoin
    simp at hjoin
    rw [hjoin]
  · simp only []
    rw [eosCol_append, eosCol_flatten, shiftX_eosCol]
    have hmap := mapStrokes_eosCols (if mf ≤ 1 then mf else 1) (if mf ≤ 1 then 0 else mf - 1)
      (splitStrokes c).1 g
    rw [hms] at hmap
    have hsp := spacingAux_eosCols (if mf ≤ 1 then mf else 1) (if mf ≤ 1 then 0 else mf - 1)
      rest 0 (mapStrokes (if mf ≤ 1 then mf else 1) (if mf ≤ 1 then 0 else mf - 1)
        (splitStrokes c).1 g).2
    calc (List.map eosCol (s0 :: (spacingAux _ _ 0 rest _).1)).flatten ++ eosCol (splitStrokes c).2
        = (eosCol s0 :: rest.map eosCol).flatten ++ eosCol (splitStrokes c).2 := by
          rw [List.map_cons, hsp]
      _ = ((splitStrokes c).1.map eosCol).flatten ++ eosCol (splitStrokes c).2 := by
          rw [← List.map_cons eosCol s0 rest, hmap]
      _ = eosCol ((splitStrokes c).1.flatten ++ (splitStrokes c).2) := by
          rw [eosCol_append, eosCol_flatten]
      _ = eosCol c := by rw [hjoin]

theorem globalDrift_eosCol (rf : ℝ) (c : List Pt) (g : Rng) :
    eosCol (globalDrift rf c g) = eosCol c := by
  unfold globalDrift
  by_cases h1 : 0 < rf ∧ 10 < c.length
  · rw [if_pos h1]
    by_cases h2 : 0 < lastX c - headX c
    · rw [if_pos h2]
      unfold eosCol
      rw [List.map_map]
      exact List.map_congr_left (fun p _ => rfl)
    · rw [if_neg h2]
  · rw [if_neg h1]

/-- C2: for any level in the documented range and any generator state,
add_messiness preserves the shape of its input (same number of rows; the
three columns are structural) and its eos (pen-lift) column elementwise. -/
theorem addMessiness_shape (c : List Pt) (mf : ℝ) (g : Rng)
    (_h0 : 0 ≤ mf) (_h1 : mf ≤ 1.5) :
    (addMessiness c mf g).length = c.length ∧
    eosCol (addMessiness c mf g) = eosCol c := by
  have hcol : eosCol (addMessiness c mf g) = eosCol c := by
    unfold addMessiness
    by_cases hz : mf ≤ 0
    · rw [if_pos hz]
    · rw [if_neg hz]
      simp only []
      rw [globalDrift_eosCol, messPre_eosCol]
  refine ⟨?_, hcol⟩
  have := congrArg List.length hcol
  rwa [eosCol_length, eosCol_length] at this

/-- C2 witness: level one half on a concrete one-point sequence. -/
theorem addMessiness_shape_witness :
    (addMessiness [⟨1, 2, 1⟩] 0.5 ⟨fun _ => 0, 0⟩).length = 1 ∧
    eosCol (addMessiness [⟨1, 2, 1⟩] 0.5 ⟨fun _ => 0, 0⟩) = [1] := by
  have h := addMessiness_shape [⟨1, 2, 1⟩] 0.5 ⟨fun _ => 0, 0⟩ (by norm_num) (by norm_num)
  simpa [eosCol] using h

/- ==================== drawing.denoise / drawing.interpolate ==================== -/

/-- Pointwise rebuilding of a stroke from smoothed x values, smoothed y
values and the untouched eos column (np.hstack / np.concatenate). -/
def mkPts : List ℝ → List ℝ → List ℝ → List Pt
  | xv :: xs, yv :: ys, e :: es => ⟨xv, yv, e⟩ :: mkPts xs ys es
  | _, _, _ => []

/-- The pieces np.split produces at eos boundaries: the closed segments plus
the trailing remainder when it is nonempty; zero-length pieces contribute
nothing downstream. -/
noncomputable def splitAll (c : List Pt) : List (List Pt) :=
  (splitStrokes c).1 ++ (if (splitStrokes c).2.isEmpty then [] else [(splitStrokes c).2])

/-- drawing.denoise: smooth the x and y channel of every stroke independently
with the Savitzky-Golay filter (a total, length-preserving smoothing map,
passed explicitly), keep the eos column, and reassemble in order. -/
noncomputable def denoise (smooth : List ℝ → List ℝ) (c : List Pt) : List Pt :=
  ((splitAll c).map (fun s =>
    mkPts (smooth (s.map Pt.x)) (smooth (s.map Pt.y)) (s.map Pt.eos))).flatten

theorem mkPts_eosCol (xs ys es : List ℝ) (hx : es.length ≤ xs.length)
    (hy : es.length ≤ ys.length) : eosCol (mkPts xs ys es) = es := by
  induction es generalizing xs ys with
  | nil =>
    cases xs with
    | nil => rfl
    | cons xv xs' =>
      cases ys with
      | nil => rfl
      | cons yv ys' => rfl
  | cons e es' ih =>
    cases xs with
    | nil => simp at hx
    | cons xv xs' =>
      cases ys with
      | nil => simp at hy
      | cons yv ys' =>
        simp only [mkPts, eosCol, List.map_cons, List.cons.injEq]
        refine ⟨trivial, ?_⟩
        exact ih xs' ys' (by simpa using hx) (by simpa using hy)

theorem splitAll_flatten (c : List Pt) : (splitAll c).flatten = c := by
  unfold splitAll
  rcases ht : (splitStrokes c).2 with _ | ⟨p, tl⟩
  · have h := splitStrokes_join c
    rw [ht, List.append_nil] at h
    simpa using h
  · rw [List.isEmpty_cons, if_neg (by simp)]
    rw [List.flatten_append]
    simp only [List.flatten_cons, List.flatten_nil, List.append_nil]
    rw [← ht]
    exact splitStrokes_join c

/-- C8: denoise preserves the eos (pen-lift) column of any nonempty sequence
elementwise - in particular the count and order of stroke boundaries - for
every total length-preserving smoothing filter; zero-length pieces produced
by the split are dropped without effect. -/
theorem denoise_preserves_boundaries (smooth : List ℝ → List ℝ)
    (hsm : ∀ l, (smooth l).length = l.length) (c : List Pt) (_hc : c ≠ []) :
    eosCol (denoise smooth c) = eosCol c := by
  unfold denoise
  rw [eosCol_flatten, List.map_map]
  have hmap : ∀ s : List Pt,
      (eosCol ∘ fun s => mkPts (smooth (s.map Pt.x)) (smooth (s.map Pt.y)) (s.map Pt.eos)) s
        = eosCol s := by
    intro s
    apply mkPts_eosCol
    · rw [hsm]; simp [eosCol]
    · rw [hsm]; simp [eosCol]
  calc ((splitAll c).map
          (eosCol ∘ fun s => mkPts (smooth (s.map Pt.x)) (smooth (s.map Pt.y)) (s.map Pt.eos))).flatten
      = ((splitAll c).map eosCol).flatten := by
        rw [List.map_congr_left (fun s _ => hmap s)]
    _ = eosCol (splitAll c).flatten := (eosCol_flatten _).symm
    _ = eosCol c := by rw [splitAll_flatten]

/-- C8 witness: the identity filter on a two-stroke sequence. -/
theorem denoise_preserves_boundaries_witness :
    eosCol (denoise (fun l => l) [⟨0, 0, 1⟩, ⟨1, 2, 0⟩, ⟨3, 4, 1⟩]) =
      eosCol [⟨0, 0, 1⟩, ⟨1, 2, 0⟩, ⟨3, 4, 1⟩] :=
  denoise_preserves_boundaries (fun l => l) (fun _ => rfl)
    [⟨0, 0, 1⟩, ⟨1, 2, 0⟩, ⟨3, 4, 1⟩] (by simp)

/-- np.linspace: n evenly spaced values from a to b inclusive. -/
noncomputable def linspace (a b : ℝ) (n : ℕ) : List ℝ :=
  if n = 1 then [a]
  else (List.range n).map (fun (i : ℕ) => a + (i : ℝ) * ((b - a) / ((n : ℝ) - 1)))

theorem linspace_length (a b : ℝ) (n : ℕ) : (linspace a b n).length = n := by
  unfold linspace
  by_cases h : n = 1
  · rw [if_pos h, h]; rfl
  · rw [if_neg h, List.length_map, List.length_range]

/-- Rebuild the eos column of a resampled stroke: all zero except the final
point, which is set to 1. -/
def setEosLast : List (ℝ × ℝ) → List Pt
  | [] => []
  | [q] => [⟨q.1, q.2, 1⟩]
  | q :: q2 :: rest => ⟨q.1, q.2, 0⟩ :: setEosLast (q2 :: rest)

/-- Resampling of one stroke with length above 3: evaluate the cubic
interpolants (passed explicitly) of the x and y channels at factor times
length evenly spaced parameter values over the original parameter range, and
re-terminate the stroke at its new length. -/
noncomputable def interpStroke (fx fy : List ℝ → ℝ → ℝ) (k : ℕ) (s : List Pt) : List Pt :=
  setEosLast ((linspace 0 ((s.length : ℝ) - 1) (k * s.length)).map
    (fun t => (fx (s.map Pt.x) t, fy (s.map Pt.y) t)))

/-- drawing.interpolate: per-stroke cubic resampling for strokes longer than
3 points; shorter strokes keep their (x, y) values and are re-terminated. -/
noncomputable def interpolate (fx fy : List ℝ → ℝ → ℝ) (k : ℕ) (c : List Pt) : List Pt :=
  ((splitAll c).map (fun s =>
    if 3 < s.length then interpStroke fx fy k s
    else setEosLast (s.map (fun p => (p.x, p.y))))).flatten

theorem setEosLast_length (l : List (ℝ × ℝ)) : (setEosLast l).length = l.length := by
  induction l with
  | nil => rfl
  | cons q rest ih =>
    cases rest with
    | nil => rfl
    | cons q2 rest2 => simpa [setEosLast] using ih

theorem setEosLast_eosCol (l : List (ℝ × ℝ)) (h : l ≠ []) :
    eosCol (setEosLast l) = List.replicate (l.length - 1) 0 ++ [1] := by
  induction l with
  | nil => exact absurd rfl h
  | cons q rest ih =>
    cases rest with
    | nil => rfl
    | cons q2 rest2 =>
      simp only [setEosLast, eosCol, List.map_cons] at ih ⊢
      rw [ih (by simp)]
      simp [List.replicate_succ]

/-- A segment produced by the eos splitter: nonempty, interior points do not
carry eos value 1, and the final point does. -/
theorem splitAux_shape (l : List Pt) :
    ∀ cur, (∀ p ∈ cur, ¬ p.eos = 1) →
      ∀ s ∈ (splitAux cur l).1, s ≠ [] ∧ (∀ p ∈ s.dropLast, ¬ p.eos = 1) ∧
        (∀ q, s.getLast? = some q → q.eos = 1) := by
  induction l with
  | nil => intro cur _ s hs; simp [splitAux] at hs
  | cons p rest ih =>
    intro cur hcur s hs
    by_cases h : p.eos = 1
    · rw [splitAux, if_pos h] at hs
      simp only [List.mem_cons] at hs
      rcases hs with rfl | hs'
      · refine ⟨by simp, ?_, ?_⟩
        · rw [List.dropLast_concat]
          intro q hq
          exact hcur q (by simpa using hq)
        · intro q hq
          rw [List.getLast?_concat] at hq
          rw [Option.some.injEq] at hq
          rw [← hq]
          exact h
      · exact ih [] (by simp) s hs'
    · rw [splitAux, if_neg h] at hs
      refine ih (p :: cur) ?_ s hs
      intro q hq
      rcases List.mem_cons.mp hq with rfl | hq'
      · exact h
      · exact hcur q hq'

/-- Pass-through of a well-shaped stroke: rebuilding the eos column of its
unchanged (x, y) values reproduces it exactly. -/
theorem setEosLast_id (s : List Pt) (hne : s ≠ [])
    (hint : ∀ p ∈ s.dropLast, p.eos = 0)
    (hlast : ∀ q, s.getLast? = some q → q.eos = 1) :
    setEosLast (s.map (fun p => (p.x, p.y))) = s := by
  induction s with
  | nil => exact absurd rfl hne
  | cons q rest ih =>
    cases rest with
    | nil =>
      have h1 : q.eos = 1 := hlast q rfl
      simp only [List.map_cons, List.map_nil, setEosLast]
      rw [← h1]
    | cons q2 rest2 =>
      simp only [List.map_cons, setEosLast]
      have h0 : q.eos = 0 := hint q (by simp)
      rw [← h0]
      rw [List.cons.injEq]
      refine ⟨rfl, ?_⟩
      have := ih (by simp) (fun p hp => hint p (by simpa using List.mem_cons_of_mem q hp))
        (fun r hr => hlast r (by simpa using hr))
      simpa using this

/-- Every point of a closed segment belongs to the original sequence. -/
theorem mem_of_mem_splitStrokes {c : List Pt} {s : List Pt} {p : Pt}
    (hs : s ∈ (splitStrokes c).1) (hp : p ∈ s) : p ∈ c := by
  have : p ∈ (splitStrokes c).1.flatten := List.mem_flatten.mpr ⟨s, hs, hp⟩
  rw [← splitStrokes_join c]
  exact List.mem_append_left _ this

/-- A sequence well-formed per the data model: every eos flag is 0 or 1 and
the final point (if any) closes its stroke. -/
def wfSeq (c : List Pt) : Prop :=
  (∀ p ∈ c, p.eos = 0 ∨ p.eos = 1) ∧ (∀ p, c.getLast? = some p → p.eos = 1)

theorem splitAux_tail_nil (l : List Pt) :
    ∀ cur, l ≠ [] → (∀ p, l.getLast? = some p → p.eos = 1) →
      (splitAux cur l).2 = [] := by
  induction l with
  | nil => intro cur hne _; exact absurd rfl hne
  | cons p rest ih =>
    intro cur _ hlast
    by_cases h : p.eos = 1
    · rw [splitAux, if_pos h]
      cases rest with
      | nil => rfl
      | cons q rest2 =>
        exact ih [] (by simp) (fun r hr => hlast r (by rw [List.getLast?_cons_cons]; exact hr))
    · rw [splitAux, if_neg h]
      cases rest with
      | nil =>
        exact absurd (hlast p rfl) h
      | cons q rest2 =>
        exact ih (p :: cur) (by simp)
          (fun r hr => hlast r (by rw [List.getLast?_cons_cons]; exact hr))

theorem splitStrokes_tail_nil {c : List Pt} (hwf : wfSeq c) : (splitStrokes c).2 = [] := by
  cases c with
  | nil => rfl
  | cons p rest => exact splitAux_tail_nil (p :: rest) [] (by simp) hwf.2

/-- C7: for factor k at least 1 on a well-formed sequence, interpolate maps
every stroke of length above 3 to a resampled stroke and keeps every shorter
stroke exactly as it was; a resampled stroke of original length L has exactly
k times L points, with eos column all zero except a final 1. -/
theorem interpolate_strokes (fx fy : List ℝ → ℝ → ℝ) (k : ℕ) (c : List Pt)
    (hk : 1 ≤ k) (hwf : wfSeq c) :
    interpolate fx fy k c =
      ((splitStrokes c).1.map (fun s =>
        if 3 < s.length then interpStroke fx fy k s else s)).flatten ∧
    ∀ s ∈ (splitStrokes c).1, 3 < s.length →
      (interpStroke fx fy k s).length = k * s.length ∧
      eosCol (interpStroke fx fy k s) = List.replicate (k * s.length - 1) 0 ++ [1] := by
  constructor
  · unfold interpolate splitAll
    rw [splitStrokes_tail_nil hwf]
    simp only [List.isEmpty_nil, if_true, List.append_nil]
    congr 1
    apply List.map_congr_left
    intro s hs
    by_cases h3 : 3 < s.length
    · rw [if_pos h3, if_pos h3]
    · rw [if_neg h3, if_neg h3]
      obtain ⟨hne, hint, hlast⟩ := splitAux_shape c [] (by simp) s hs
      apply setEosLast_id s hne ?_ hlast
      intro p hp
      have hmem : p ∈ c := mem_of_mem_splitStrokes hs (List.dropLast_subset _ hp)
      rcases hwf.1 p hmem with h0 | h1
      · exact h0
      · exact absurd h1 (hint p hp)
  · intro s hs h3
    have hlen : (interpStroke fx fy k s).length = k * s.length := by
      unfold interpStroke
      rw [setEosLast_length, List.length_map, linspace_length]
    refine ⟨hlen, ?_⟩
    unfold interpStroke
    rw [setEosLast_eosCol, List.length_map, linspace_length]
    intro hcontra
    have := congrArg List.length hcontra
    rw [List.length_map, linspace_length] at this
    have : k * s.length = 0 := this
    have hpos : 0 < k * s.length := Nat.mul_pos (by omega) (by omega)
    omega

/-- C7 witness: factor 2 on one four-point stroke. -/
theorem interpolate_strokes_witness :
    interpolate (fun _ _ => 0) (fun _ _ => 0) 2 [⟨0, 0, 0⟩, ⟨1, 0, 0⟩, ⟨2, 0, 0⟩, ⟨3, 0, 1⟩] =
      ((splitStrokes [⟨0, 0, 0⟩, ⟨1, 0, 0⟩, ⟨2, 0, 0⟩, ⟨3, 0, 1⟩]).1.map (fun s =>
        if 3 < s.length then interpStroke (fun _ _ => 0) (fun _ _ => 0) 2 s else s)).flatten ∧
    ∀ s ∈ (splitStrokes [⟨0, 0, 0⟩, ⟨1, 0, 0⟩, ⟨2, 0, 0⟩, ⟨3, 0, 1⟩]).1, 3 < s.length →
      (interpStroke (fun _ _ => 0) (fun _ _ => 0) 2 s).length = 2 * s.length ∧
      eosCol (interpStroke (fun _ _ => 0) (fun _ _ => 0) 2 s) =
        List.replicate (2 * s.length - 1) 0 ++ [1] := by
  apply interpolate_strokes _ _ 2 _ (by norm_num)
  constructor
  · intro p hp
    rcases List.mem_cons.mp hp with rfl | hp1
    · exact Or.inl rfl
    rcases List.mem_cons.mp hp1 with rfl | hp2
    · exact Or.inl rfl
    rcases List.mem_cons.mp hp2 with rfl | hp3
    · exact Or.inl rfl
    rcases List.mem_cons.mp hp3 with rfl | hp4
    · exact Or.inr rfl
    · exact absurd hp4 (List.not_mem_nil p)
  · intro p hp
    have : some (⟨3, 0, 1⟩ : Pt) = some p := hp
    rw [Option.some.injEq] at this
    rw [← this]

/- ==================== the global-drift step of add_messiness (C5) ==================== -/

/-- Minimum of the x column (0 on the empty list). -/
noncomputable def xMinL (c : List Pt) : ℝ :=
  match c.map Pt.x with
  | [] => 0
  | v :: vs => vs.foldl min v

/-- Maximum of the x column (0 on the empty list). -/
noncomputable def xMaxL (c : List Pt) : ℝ :=
  match c.map Pt.x with
  | [] => 0
  | v :: vs => vs.foldl max v

/-- The global-drift step as the claim words it: one amplitude scaled by the
rush factor, progress measured from the minimum x over the x-range (maximum
minus minimum) of the sequence. -/
noncomputable def claimedDrift (rf : ℝ) (c : List Pt) (g : Rng) : List Pt :=
  c.map (fun p =>
    ⟨p.x, p.y + rf * (uniformD (-3) 3 g).1 *
      Real.sin ((p.x - xMinL c) / (xMaxL c - xMinL c) * Real.pi), p.eos⟩)

/-- The drift behaviour asserted by the claim, quantified as stated: rush
factor positive, more than 10 points, nonzero x-range. -/
def describesDriftByMinMax : Prop :=
  ∀ (c : List Pt) (mf : ℝ) (g : Rng),
    1 < mf → mf ≤ 1.5 → 10 < c.length →
    xMinL (messPre c mf g).1 ≠ xMaxL (messPre c mf g).1 →
    addMessiness c mf g =
      claimedDrift (mf - 1) (messPre c mf g).1 (messPre c mf g).2

theorem messPre_length (c : List Pt) (mf : ℝ) (g : Rng) :
    (messPre c mf g).1.length = c.length := by
  have hcol := messPre_eosCol c mf g
  have := congrArg List.length hcol
  rwa [eosCol_length, eosCol_length] at this

/-- C5 amended: in rush mode on a sequence of more than 10 points, the drift
step uses the first point's x as origin and last x minus first x as range:
when that difference is positive every point's y is incremented by
rushFactor times the drawn amplitude times sin of progress times pi, with
progress measured from the first x (which need not lie in the unit interval);
when the difference is zero or negative the step - including the amplitude
draw - is skipped, so no division by zero occurs. -/
theorem globalDrift_uses_first_last (c : List Pt) (mf : ℝ) (g : Rng)
    (h1 : 1 < mf) (_h2 : mf ≤ 1.5) (hlen : 10 < c.length) :
    (0 < lastX (messPre c mf g).1 - headX (messPre c mf g).1 →
      addMessiness c mf g = (messPre c mf g).1.map (fun p =>
        ⟨p.x, p.y + (mf - 1) * (uniformD (-3) 3 (messPre c mf g).2).1 *
          Real.sin ((p.x - headX (messPre c mf g).1) /
            (lastX (messPre c mf g).1 - headX (messPre c mf g).1) * Real.pi), p.eos⟩)) ∧
    (lastX (messPre c mf g).1 - headX (messPre c mf g).1 ≤ 0 →
      addMessiness c mf g = (messPre c mf g).1) := by
  have hlen2 : 10 < (messPre c mf g).1.length := by
    rw [messPre_length]; exact hlen
  have hunf : addMessiness c mf g =
      globalDrift (mf - 1) (messPre c mf g).1 (messPre c mf g).2 := by
    unfold addMessiness
    rw [if_neg (by linarith), if_neg (by linarith : ¬ mf ≤ 1)]
  constructor
  · intro hpos
    rw [hunf]
    unfold globalDrift
    rw [if_pos ⟨by linarith, hlen2⟩, if_pos hpos]
  · intro hneg
    rw [hunf]
    unfold globalDrift
    rw [if_pos ⟨by linarith, hlen2⟩, if_neg (by linarith)]

/-- The counterexample input for the drift claim: four strokes, each with all
points at one (x, y) position, eleven points in total, x decreasing from the
first point to the last. -/
def cexC : List Pt :=
  [⟨10, 0, 0⟩, ⟨10, 0, 0⟩, ⟨10, 0, 1⟩,
   ⟨5, 0, 0⟩, ⟨5, 0, 0⟩, ⟨5, 0, 1⟩,
   ⟨5, 0, 0⟩, ⟨5, 0, 0⟩, ⟨5, 0, 1⟩,
   ⟨0, 0, 0⟩, ⟨0, 0, 1⟩]

/-- Draw stream for the counterexample: zero for the 24 per-stroke draws, one
third for the six spacing draws (making every spacing shift exactly zero),
zero afterwards; all values lie in the unit interval, so they are admissible
uniform draws. -/
noncomputable def cexStream : ℕ → ℝ := fun n =>
  if n < 24 then 0 else if n < 30 then 1/3 else 0

/-- The value of effects 1-6 on the counterexample input: every stroke keeps
its constant coordinates except for the common baseline drift of minus 2. -/
def cexPre : List Pt :=
  [⟨10, -2, 0⟩, ⟨10, -2, 0⟩, ⟨10, -2, 1⟩,
   ⟨5, -2, 0⟩, ⟨5, -2, 0⟩, ⟨5, -2, 1⟩,
   ⟨5, -2, 0⟩, ⟨5, -2, 0⟩, ⟨5, -2, 1⟩,
   ⟨0, -2, 0⟩, ⟨0, -2, 1⟩]

theorem cex_messPre : messPre cexC 1.5 ⟨cexStream, 0⟩ = (cexPre, ⟨cexStream, 30⟩) := by
  norm_num [messPre, splitStrokes, splitAux, mapStrokes, strokeStep, rotateAbout,
    spacingAux, shiftX, mean, uniformD, normalD, Rng.next, cexStream, cexC, cexPre]

theorem cex_min : xMinL cexPre = 0 := by
  norm_num [xMinL, cexPre, List.foldl, min_def]

theorem cex_max : xMaxL cexPre = 10 := by
  norm_num [xMaxL, cexPre, List.foldl, max_def]

theorem cex_addMessiness : addMessiness cexC 1.5 ⟨cexStream, 0⟩ = cexPre := by
  unfold addMessiness
  rw [if_neg (by norm_num : ¬ (1.5 : ℝ) ≤ 0), if_neg (by norm_num : ¬ (1.5 : ℝ) ≤ 1)]
  rw [cex_messPre]
  unfold globalDrift
  rw [if_pos ⟨by norm_num, by norm_num [cexPre]⟩]
  rw [if_neg ?_]
  have hl : lastX cexPre = 0 := rfl
  have hh : headX cexPre = 10 := rfl
  rw [hl, hh]
  norm_num

/-- C5 counterexample: on the concrete input cexC with level 1.5 and the
cexStream draws, the code leaves the sequence at its steps-1-6 state (last x
minus first x is negative, so the drift step is skipped), while the claimed
min-max formula would add a nonzero term at the points with x equal 5; so
the claim as stated is false. -/
theorem drift_min_max_counterexample : ¬ describesDriftByMinMax := by
  intro hclaim
  have h := hclaim cexC 1.5 ⟨cexStream, 0⟩ (by norm_num) (by norm_num)
    (by norm_num [cexC]) ?_
  · rw [cex_addMessiness, cex_messPre] at h
    dsimp only at h
    simp only [claimedDrift] at h
    simp only [cex_min, cex_max] at h
    have h3 := congrArg (fun l => l.tail.tail.tail.head?) h
    simp only [cexPre, List.map_cons, List.tail_cons, List.head?_cons, Option.some.injEq,
      Pt.mk.injEq, uniformD, Rng.next] at h3
    obtain ⟨-, hy, -⟩ := h3
    rw [show ((5 : ℝ) - 0) / (10 - 0) * Real.pi = Real.pi / 2 by ring] at hy
    rw [Real.sin_pi_div_two] at hy
    norm_num [cexStream] at hy
  · rw [cex_messPre]
    dsimp only
    rw [cex_min, cex_max]
    norm_num

/-- C5 amended witness: the concrete eleven-point input at level 1.5; its
last x minus first x is negative, so the second conjunct applies. -/
theorem globalDrift_uses_first_last_witness :
    (0 < lastX (messPre cexC 1.5 ⟨cexStream, 0⟩).1 - headX (messPre cexC 1.5 ⟨cexStream, 0⟩).1 →
      addMessiness cexC 1.5 ⟨cexStream, 0⟩ = (messPre cexC 1.5 ⟨cexStream, 0⟩).1.map (fun p =>
        ⟨p.x, p.y + (1.5 - 1) * (uniformD (-3) 3 (messPre cexC 1.5 ⟨cexStream, 0⟩).2).1 *
          Real.sin ((p.x - headX (messPre cexC 1.5 ⟨cexStream, 0⟩).1) /
            (lastX (messPre cexC 1.5 ⟨cexStream, 0⟩).1 -
              headX (messPre cexC 1.5 ⟨cexStream, 0⟩).1) * Real.pi), p.eos⟩)) ∧
    (lastX (messPre cexC 1.5 ⟨cexStream, 0⟩).1 - headX (messPre cexC 1.5 ⟨cexStream, 0⟩).1 ≤ 0 →
      addMessiness cexC 1.5 ⟨cexStream, 0⟩ = (messPre cexC 1.5 ⟨cexStream, 0⟩).1) :=
  globalDrift_uses_first_last cexC 1.5 ⟨cexStream, 0⟩ (by norm_num) (by norm_num)
    (by norm_num [cexC])
